import Mathlib

set_option autoImplicit false

/-
Shallow embedding of the incremental GitHub-activity synchronization engine
of `src/bot.py` (the `check_commits` polling task, its helpers, and the
cursor-seeding part of the `add_github` command).

Time is modelled as seconds since an arbitrary epoch (`Int`); the parsed
`datetime` values of the Python code become these integers, and
`timedelta(days=7)` becomes `windowSeconds`.  The per-account DB column
`last_event_id` (the cursor) is an `Option String` (`NULL` or a stored
identifier).  GitHub JSON commit objects become `CommitRecord`s holding the
fields the code reads: `sha`, the parsed author date, and the fields used
for delivery.
-/

namespace DashGit

/-- Commit data extracted from one element of the GitHub commits JSON page:
`commit["sha"]`, the parsed `commit["commit"]["author"]["date"]`,
`commit["commit"]["message"]`, `commit["commit"]["author"]["name"]`,
`commit["html_url"]`. -/
structure CommitRecord where
  sha : String
  timestamp : Int
  message : String
  authorName : String
  url : String
deriving DecidableEq

/-- The trailing window `timedelta(days=7)` of `bot.py` line 81, in seconds. -/
def windowSeconds : Int := 7 * 24 * 60 * 60

/-- The guard `last_event_id and sha == last_event_id` of `bot.py` line 79:
a `NULL` cursor is falsy, otherwise the stored string is compared with the
commit sha. -/
def cursorMatches : Option String → String → Bool
  | none, _ => false
  | some cur, sha => decide (cur = sha)

/-- The inner loop of `check_commits` over one repository page
(`bot.py` lines 76-82): walk the fetched commits in page order, stop at the
first commit whose sha equals the stored cursor, and keep every commit whose
timestamp is within the trailing 7-day window from `now`. -/
def walkRepo (lastEventId : Option String) (now : Int) :
    List CommitRecord → List CommitRecord
  | [] => []
  | c :: rest =>
    if cursorMatches lastEventId c.sha then []
    else if now - c.timestamp ≤ windowSeconds then
      c :: walkRepo lastEventId now rest
    else
      walkRepo lastEventId now rest

/-- The accumulation of `new_commits` across the repositories of one account
(`bot.py` lines 67-82): each repository page is walked and the survivors are
tagged with their repository name, in repository order. -/
def accumulate (lastEventId : Option String) (now : Int) :
    List (String × List CommitRecord) → List (String × CommitRecord)
  | [] => []
  | (name, commits) :: rest =>
      (walkRepo lastEventId now commits).map (fun c => (name, c))
        ++ accumulate lastEventId now rest

/-- Lookup in the insertion-ordered association list that models the Python
dict `newest_commits`. -/
def lookupRepo : List (String × CommitRecord) → String → Option CommitRecord
  | [], _ => none
  | (r, c) :: rest, name => if r = name then some c else lookupRepo rest name

/-- Assignment `newest_commits[repo_name] = ...` on the insertion-ordered
dict model: overwrite in place when the key exists, append otherwise. -/
def updateRepo : List (String × CommitRecord) → String → CommitRecord →
    List (String × CommitRecord)
  | [], name, c => [(name, c)]
  | (r, c0) :: rest, name, c =>
      if r = name then (r, c) :: rest else (r, c0) :: updateRepo rest name c

/-- One iteration of the conflation loop (`bot.py` lines 87-89): the incoming
commit replaces the kept one for its repository only when the repository is
absent or the incoming timestamp is strictly greater. -/
def conflateStep (m : List (String × CommitRecord)) (p : String × CommitRecord) :
    List (String × CommitRecord) :=
  match lookupRepo m p.1 with
  | none => updateRepo m p.1 p.2
  | some kept =>
      if kept.timestamp < p.2.timestamp then updateRepo m p.1 p.2 else m

/-- The `newest_commits` dict built by `bot.py` lines 86-89 from the
accumulated `new_commits` list. -/
def newestCommits (l : List (String × CommitRecord)) :
    List (String × CommitRecord) :=
  l.foldl conflateStep []

/-- The semantics of Python `max(..., key=lambda x: x[1])` over commit lists:
scan left to right, replacing the current best only on a strictly greater
timestamp, so the first maximal element wins. -/
def keepNewest (best : CommitRecord) : List CommitRecord → CommitRecord
  | [] => best
  | c :: rest => keepNewest (if best.timestamp < c.timestamp then c else best) rest

/-- The computation `max(newest_commits.values(), key=lambda x: x[1])` of
`bot.py` line 92, over the insertion-ordered values of the dict model. -/
def maxByTimestamp : List (String × CommitRecord) → Option CommitRecord
  | [] => none
  | p :: rest => some (keepNewest p.2 (rest.map Prod.snd))

/-- Result of one per-account pass of `check_commits`: the conflated
per-repository selection and the cursor value stored afterwards. -/
structure SyncResult where
  selected : List (String × CommitRecord)
  newCursor : Option String
deriving DecidableEq

/-- One per-account pass of `check_commits` (`bot.py` lines 60-98) as a pure
function: accumulate, and when anything was accumulated, conflate per
repository and move the cursor to the sha of the most recent conflated
commit; otherwise the stored cursor is untouched. -/
def syncAccount (lastEventId : Option String) (now : Int)
    (repos : List (String × List CommitRecord)) : SyncResult :=
  let newCommits := accumulate lastEventId now repos
  if newCommits.isEmpty then { selected := [], newCursor := lastEventId }
  else
    let newest := newestCommits newCommits
    match maxByTimestamp newest with
    | some best => { selected := newest, newCursor := some best.sha }
    | none => { selected := newest, newCursor := lastEventId }

/-- Observable side effects of one per-account pass, in program order. -/
inductive Event where
  | cursorWrite (accId : Nat) (sha : String)
  | deliver (channelId : Nat) (repoName : String) (sha : String)
deriving DecidableEq

/-- Side-effect trace of one per-account pass of `check_commits`
(`bot.py` lines 84-120): when commits were accumulated, the UPDATE of
`last_event_id` happens first (lines 93-98), then, only when a channel was
resolved, one send per conflated repository entry (lines 114-119).  Nothing
after the sends touches the database. -/
def processTrace (accId : Nat) (lastEventId : Option String) (now : Int)
    (repos : List (String × List CommitRecord)) (channel : Option Nat) :
    List Event :=
  let newCommits := accumulate lastEventId now repos
  if newCommits.isEmpty then []
  else
    let newest := newestCommits newCommits
    match maxByTimestamp newest with
    | none => []
    | some best =>
        Event.cursorWrite accId best.sha ::
          match channel with
          | none => []
          | some ch => newest.map (fun p => Event.deliver ch p.1 p.2.sha)

end DashGit

namespace DashGit

/-- Commits accumulated for one repository name, in accumulation order. -/
def commitsFor (r : String) (l : List (String × CommitRecord)) :
    List CommitRecord :=
  l.filterMap (fun p => if p.1 = r then some p.2 else none)

/-- Per-key view of the conflation fold: the commit kept for one repository
after feeding it a sequence of commits, starting from an optional already
kept one. -/
def foldOpt : Option CommitRecord → List CommitRecord → Option CommitRecord
  | k, [] => k
  | none, c :: cs => foldOpt (some c) cs
  | some k, c :: cs =>
      foldOpt (some (if k.timestamp < c.timestamp then c else k)) cs

/-- Pages returned by the GitHub commits endpoint are in reverse
chronological order; this predicate captures that ordering. -/
def NewestFirst (cs : List CommitRecord) : Prop :=
  List.Pairwise (fun a b => b.timestamp ≤ a.timestamp) cs

instance (cs : List CommitRecord) : Decidable (NewestFirst cs) := by
  unfold NewestFirst
  infer_instance

/-- Raw commit object of the fetched JSON page; a `none` field models a key
that is missing or unparseable, on which the extraction of `bot.py`
lines 77-78 raises (`KeyError` / `ValueError`). -/
structure RawCommit where
  sha : Option String
  date : Option Int
  message : String
  authorName : String
  url : String
deriving DecidableEq

/-- Field extraction of `bot.py` lines 77-78 (`commit["sha"]` and the
`strptime` of the author date): an exception for a malformed record,
otherwise the parsed `CommitRecord`. -/
def parseCommit (rc : RawCommit) : Except String CommitRecord :=
  match rc.sha with
  | none => .error "KeyError: sha"
  | some s =>
      match rc.date with
      | none => .error "ValueError: date"
      | some d =>
          .ok { sha := s, timestamp := d, message := rc.message,
                authorName := rc.authorName, url := rc.url }

/-- Result of the per-repository commits request (`bot.py` lines 71-75):
a non-200 status, skipped with a log, or the JSON page. -/
inductive FetchOutcome where
  | httpError (status : Nat)
  | page (commits : List RawCommit)
deriving DecidableEq

/-- The inner walk of `check_commits` with the in-loop field extraction:
a malformed record positioned before the stop point propagates as an
exception out of the whole account pass (there is no try/except around the
account loop in `bot.py`). -/
def walkRepoE (lastEventId : Option String) (now : Int) :
    List RawCommit → Except String (List CommitRecord)
  | [] => .ok []
  | rc :: rest => do
      let c ← parseCommit rc
      if cursorMatches lastEventId c.sha then pure []
      else do
        let cs ← walkRepoE lastEventId now rest
        if now - c.timestamp ≤ windowSeconds then pure (c :: cs) else pure cs

/-- Per-account view of the state `check_commits` reads for one account:
the row id, the stored cursor, and the per-repository fetch outcomes (an
empty list models empty or failed repository discovery, which skips the
account at `bot.py` lines 62-64). -/
structure AccountInput where
  accId : Nat
  cursor : Option String
  repoFetches : List (String × FetchOutcome)
deriving DecidableEq

/-- Accumulation across repositories with error propagation
(`bot.py` lines 66-82): non-200 repositories are skipped by `continue`;
a parse exception aborts the account pass. -/
def accumulateE (lastEventId : Option String) (now : Int) :
    List (String × FetchOutcome) → Except String (List (String × CommitRecord))
  | [] => .ok []
  | (_, .httpError _) :: rest => accumulateE lastEventId now rest
  | (name, .page raws) :: rest => do
      let cs ← walkRepoE lastEventId now raws
      let others ← accumulateE lastEventId now rest
      pure (cs.map (fun c => (name, c)) ++ others)

/-- One account iteration of `check_commits` (`bot.py` lines 60-98) with
error propagation. -/
def processAccountE (now : Int) (a : AccountInput) : Except String SyncResult :=
  if a.repoFetches.isEmpty then .ok { selected := [], newCursor := a.cursor }
  else do
    let nc ← accumulateE a.cursor now a.repoFetches
    if nc.isEmpty then pure { selected := [], newCursor := a.cursor }
    else
      let newest := newestCommits nc
      match maxByTimestamp newest with
      | some best => pure { selected := newest, newCursor := some best.sha }
      | none => pure { selected := newest, newCursor := a.cursor }

/-- The account loop of one tick (`bot.py` line 60): accounts run strictly
sequentially with no try/except, so an exception for one account aborts the
tick; the outcomes of the accounts processed before it stand.  Returns the
processed outcomes and the uncaught exception, if any. -/
def runTick (now : Int) : List AccountInput → List (Nat × SyncResult) × Option String
  | [] => ([], none)
  | a :: rest =>
      match processAccountE now a with
      | .error e => ([], some e)
      | .ok r =>
          let out := runTick now rest
          ((a.accId, r) :: out.1, out.2)

/-- A fetch outcome whose records all carry the fields the walk extracts. -/
def wellFormedOutcome : FetchOutcome → Bool
  | .httpError _ => true
  | .page raws => raws.all (fun rc => rc.sha.isSome && rc.date.isSome)

/-- An account snapshot none of whose fetched commit records is malformed
(its fetches may still be HTTP failures, and its discovery may be empty). -/
def wellFormedInput (a : AccountInput) : Bool :=
  a.repoFetches.all (fun p => wellFormedOutcome p.2)

/-- GitHub event object as read by `add_github` (`bot.py` lines 321-325). -/
structure GhEvent where
  type : String
  id : String
  createdAt : String
deriving DecidableEq

/-- The inner loop of `add_github` over one repository's events
(`bot.py` lines 321-326): only the first `PushEvent` matters, then `break`. -/
def firstPushEvent : List GhEvent → Option GhEvent
  | [] => none
  | e :: rest => if e.type = "PushEvent" then some e else firstPushEvent rest

/-- One repository step of the seeding loop (`bot.py` lines 322-326): keep
the stored event id, replacing it when nothing is stored yet or when
`event["created_at"] > newest_event_id` — the code compares the timestamp
string against the stored id string. -/
def seedStep (cur : Option String) (events : List GhEvent) : Option String :=
  match firstPushEvent events with
  | none => cur
  | some e =>
      match cur with
      | none => some e.id
      | some cid => if cid < e.createdAt then some e.id else cur

/-- The catch-up seed computed by `add_github` (`bot.py` lines 312-326):
the `last_event_id` stored for a freshly linked account, an event id from
the events endpoint. -/
def seedCursor (repoEvents : List (List GhEvent)) : Option String :=
  repoEvents.foldl seedStep none

/-- Example commit of repository `A`: the commit the stored cursor points
at, with the larger timestamp. -/
def commitA1 : CommitRecord :=
  { sha := "a1", timestamp := 100, message := "newer work",
    authorName := "alice", url := "urlA1" }

/-- Example commit of repository `B`: older than `commitA1` but inside the
7-day window. -/
def commitB0 : CommitRecord :=
  { sha := "b0", timestamp := 50, message := "older work",
    authorName := "alice", url := "urlB0" }

/-- Example account state with two repositories and unchanging upstream
data: the cursor points at repository `A`'s only commit. -/
def twoRepoPages : List (String × List CommitRecord) :=
  [("A", [commitA1]), ("B", [commitB0])]

/-- Commit `C1` at `T0 = 0` of the specification scenario. -/
def commitT0 : CommitRecord :=
  { sha := "C1", timestamp := 0, message := "base", authorName := "dev",
    url := "u1" }

/-- Commit `C2` at `T0 + 1h` of the specification scenario. -/
def commitT1 : CommitRecord :=
  { sha := "C2", timestamp := 3600, message := "second push",
    authorName := "dev", url := "u2" }

/-- Commit `C3` at `T0 + 2h` of the specification scenario. -/
def commitT2 : CommitRecord :=
  { sha := "C3", timestamp := 7200, message := "third push",
    authorName := "dev", url := "u3" }

/-- The newest-first page of repository `R` in the specification scenario. -/
def scenarioPage : List (String × List CommitRecord) :=
  [("R", [commitT2, commitT1, commitT0])]

/-- A commit record whose JSON object lacks the `sha` key: extracting it
raises `KeyError`. -/
def malformedRaw : RawCommit :=
  { sha := none, date := some 90, message := "broken", authorName := "dev",
    url := "um" }

/-- A well-formed raw commit record. -/
def goodRaw : RawCommit :=
  { sha := some "g1", date := some 95, message := "fine", authorName := "dev",
    url := "ug" }

/-- Account processed first in the counterexample tick; its page holds a
malformed record. -/
def accountA : AccountInput :=
  { accId := 1, cursor := none, repoFetches := [("RA", .page [malformedRaw])] }

/-- Healthy account processed after `accountA` in the counterexample tick. -/
def accountB : AccountInput :=
  { accId := 2, cursor := none, repoFetches := [("RB", .page [goodRaw])] }

/-- A pre-existing history commit of a freshly linked user, inside the
7-day window of the first poll. -/
def historyCommit : CommitRecord :=
  { sha := "a1b2c3d", timestamp := 90, message := "old work",
    authorName := "dev", url := "uh" }

/-- The latest `PushEvent` of the freshly linked user, as the events
endpoint reports it: its `id` is a numeric event identifier, not a commit
sha. -/
def seedPushEvent : GhEvent :=
  { type := "PushEvent", id := "31536004062",
    createdAt := "2024-02-01T00:00:00Z" }

/-- Accounts of the isolation witness tick: one with empty (or failed)
repository discovery, one whose only repository fetch returns a 403, and
one healthy account. -/
def witnessTickAccounts : List AccountInput :=
  [ { accId := 1, cursor := none, repoFetches := [] },
    { accId := 3, cursor := none,
      repoFetches := [("RX", FetchOutcome.httpError 403)] },
    accountB ]

/-- Parse of `goodRaw` as the walk extracts it. -/
def goodParsed : CommitRecord :=
  { sha := "g1", timestamp := 95, message := "fine", authorName := "dev",
    url := "ug" }

/-- Standalone sync result of the healthy `accountB`. -/
def accountBResult : SyncResult :=
  { selected := [("RB", goodParsed)], newCursor := some "g1" }

theorem foldOpt_nil (k : Option CommitRecord) : foldOpt k [] = k := by
  cases k <;> rfl

theorem foldOpt_some (k : CommitRecord) (cs : List CommitRecord) :
    foldOpt (some k) cs = some (keepNewest k cs) := by
  induction cs generalizing k with
  | nil => rfl
  | cons c cs ih => simp [foldOpt, keepNewest, ih]

theorem le_keepNewest_self (k : CommitRecord) (cs : List CommitRecord) :
    k.timestamp ≤ (keepNewest k cs).timestamp := by
  induction cs generalizing k with
  | nil => exact le_refl _
  | cons c cs ih =>
      by_cases h : k.timestamp < c.timestamp
      · simp only [keepNewest, if_pos h]
        exact le_trans (le_of_lt h) (ih c)
      · simp only [keepNewest, if_neg h]
        exact ih k

theorem le_keepNewest_of_mem {x : CommitRecord} (k : CommitRecord)
    {cs : List CommitRecord} (hx : x ∈ cs) :
    x.timestamp ≤ (keepNewest k cs).timestamp := by
  induction cs generalizing k with
  | nil => cases hx
  | cons c cs ih =>
      rcases List.mem_cons.mp hx with rfl | hx
      · by_cases h : k.timestamp < x.timestamp
        · simp only [keepNewest, if_pos h]
          exact le_keepNewest_self x cs
        · simp only [keepNewest, if_neg h]
          exact le_trans (le_of_not_lt h) (le_keepNewest_self k cs)
      · by_cases h : k.timestamp < c.timestamp
        · simp only [keepNewest, if_pos h]
          exact ih c hx
        · simp only [keepNewest, if_neg h]
          exact ih k hx

theorem keepNewest_mem (k : CommitRecord) (cs : List CommitRecord) :
    keepNewest k cs = k ∨ keepNewest k cs ∈ cs := by
  induction cs generalizing k with
  | nil => exact Or.inl rfl
  | cons c cs ih =>
      by_cases h : k.timestamp < c.timestamp
      · simp only [keepNewest, if_pos h]
        rcases ih c with h1 | h1
        · exact Or.inr (by rw [h1]; exact List.mem_cons_self _ _)
        · exact Or.inr (List.mem_cons_of_mem _ h1)
      · simp only [keepNewest, if_neg h]
        rcases ih k with h1 | h1
        · exact Or.inl h1
        · exact Or.inr (List.mem_cons_of_mem _ h1)

theorem keepNewest_of_max {k : CommitRecord} {cs : List CommitRecord}
    (h : ∀ x ∈ cs, x.timestamp ≤ k.timestamp) : keepNewest k cs = k := by
  induction cs with
  | nil => rfl
  | cons c cs ih =>
      have hc : ¬ k.timestamp < c.timestamp :=
        not_lt_of_le (h c (List.mem_cons_self _ _))
      simp only [keepNewest, if_neg hc]
      exact ih (fun x hx => h x (List.mem_cons_of_mem _ hx))

theorem mem_commitsFor {r : String} {c : CommitRecord}
    {l : List (String × CommitRecord)} :
    c ∈ commitsFor r l ↔ (r, c) ∈ l := by
  simp only [commitsFor, List.mem_filterMap]
  constructor
  · rintro ⟨⟨r0, c0⟩, hp, hf⟩
    by_cases h : r0 = r
    · subst h
      rw [if_pos rfl] at hf
      injection hf with h2
      subst h2
      exact hp
    · simp only [if_neg h] at hf
      cases hf
  · intro hm
    exact ⟨(r, c), hm, by simp⟩

theorem lookupRepo_updateRepo_self (m : List (String × CommitRecord))
    (name : String) (c : CommitRecord) :
    lookupRepo (updateRepo m name c) name = some c := by
  induction m with
  | nil => simp [updateRepo, lookupRepo]
  | cons p m ih =>
      rcases p with ⟨r0, c0⟩
      by_cases h : r0 = name
      · simp [updateRepo, lookupRepo, if_pos h, h]
      · simp [updateRepo, lookupRepo, if_neg h, ih]

theorem lookupRepo_updateRepo_ne (m : List (String × CommitRecord))
    (name r : String) (c : CommitRecord) (h : name ≠ r) :
    lookupRepo (updateRepo m name c) r = lookupRepo m r := by
  induction m with
  | nil => simp [updateRepo, lookupRepo, if_neg h]
  | cons p m ih =>
      rcases p with ⟨r0, c0⟩
      by_cases h0 : r0 = name
      · subst h0
        simp [updateRepo, lookupRepo, if_neg h]
      · simp only [updateRepo, if_neg h0]
        by_cases h1 : r0 = r
        · simp [lookupRepo, if_pos h1]
        · simp [lookupRepo, if_neg h1, ih]

theorem lookupRepo_conflateStep_ne (m : List (String × CommitRecord))
    (p : String × CommitRecord) (r : String) (h : p.1 ≠ r) :
    lookupRepo (conflateStep m p) r = lookupRepo m r := by
  unfold conflateStep
  cases lookupRepo m p.1 with
  | none => exact lookupRepo_updateRepo_ne m p.1 r p.2 h
  | some kept =>
      by_cases h1 : kept.timestamp < p.2.timestamp
      · simp only [if_pos h1]
        exact lookupRepo_updateRepo_ne m p.1 r p.2 h
      · simp only [if_neg h1]

theorem lookupRepo_foldl (l : List (String × CommitRecord))
    (m : List (String × CommitRecord)) (r : String) :
    lookupRepo (l.foldl conflateStep m) r =
      foldOpt (lookupRepo m r) (commitsFor r l) := by
  induction l generalizing m with
  | nil => simp [commitsFor, foldOpt_nil, List.foldl_nil]
  | cons p l ih =>
      rcases p with ⟨r0, c0⟩
      rw [List.foldl_cons]
      by_cases h : r0 = r
      · subst h
        have hcf : commitsFor r0 ((r0, c0) :: l) = c0 :: commitsFor r0 l := by
          simp [commitsFor, List.filterMap_cons]
        rw [hcf, ih]
        cases hm : lookupRepo m r0 with
        | none =>
            have : lookupRepo (conflateStep m (r0, c0)) r0 = some c0 := by
              unfold conflateStep
              rw [hm]
              exact lookupRepo_updateRepo_self m r0 c0
            rw [this, foldOpt]
        | some kept =>
            by_cases h1 : kept.timestamp < c0.timestamp
            · have : lookupRepo (conflateStep m (r0, c0)) r0 = some c0 := by
                unfold conflateStep
                rw [hm]
                simp only [if_pos h1]
                exact lookupRepo_updateRepo_self m r0 c0
              rw [this, foldOpt, if_pos h1]
            · have : lookupRepo (conflateStep m (r0, c0)) r0 = some kept := by
                unfold conflateStep
                rw [hm]
                simp only [if_neg h1]
                exact hm
              rw [this, foldOpt, if_neg h1]
      · have hcf : commitsFor r ((r0, c0) :: l) = commitsFor r l := by
          simp [commitsFor, List.filterMap_cons, if_neg h]
        rw [hcf, ih, lookupRepo_conflateStep_ne m (r0, c0) r h]

theorem lookupRepo_newestCommits (l : List (String × CommitRecord)) (r : String) :
    lookupRepo (newestCommits l) r = foldOpt none (commitsFor r l) := by
  unfold newestCommits
  rw [lookupRepo_foldl]
  rfl

theorem updateRepo_keys (m : List (String × CommitRecord)) (name : String)
    (c : CommitRecord) :
    (updateRepo m name c).map Prod.fst =
      if name ∈ m.map Prod.fst then m.map Prod.fst
      else m.map Prod.fst ++ [name] := by
  induction m with
  | nil => simp [updateRepo]
  | cons p m ih =>
      rcases p with ⟨r0, c0⟩
      by_cases h : r0 = name
      · subst h
        simp [updateRepo]
      · simp only [updateRepo, if_neg h, List.map_cons, ih]
        by_cases h1 : name ∈ m.map Prod.fst
        · rw [if_pos h1, if_pos]
          simp [List.mem_cons, h1]
        · rw [if_neg h1, if_neg]
          · simp
          · simp only [List.mem_cons]
            rintro (h2 | h2)
            · exact h (h2.symm)
            · exact h1 h2

theorem conflateStep_keys_nodup (m : List (String × CommitRecord))
    (p : String × CommitRecord) (h : (m.map Prod.fst).Nodup) :
    ((conflateStep m p).map Prod.fst).Nodup := by
  unfold conflateStep
  cases hm : lookupRepo m p.1 with
  | none =>
      rw [updateRepo_keys]
      by_cases h1 : p.1 ∈ m.map Prod.fst
      · rw [if_pos h1]; exact h
      · rw [if_neg h1]
        simp [List.nodup_append, h, h1]
  | some kept =>
      by_cases h1 : kept.timestamp < p.2.timestamp
      · simp only [if_pos h1]
        rw [updateRepo_keys]
        by_cases h2 : p.1 ∈ m.map Prod.fst
        · rw [if_pos h2]; exact h
        · rw [if_neg h2]
          simp [List.nodup_append, h, h2]
      · simp only [if_neg h1]
        exact h

theorem newestCommits_keys_nodup (l : List (String × CommitRecord)) :
    ((newestCommits l).map Prod.fst).Nodup := by
  unfold newestCommits
  have key : ∀ (l0 m : List (String × CommitRecord)),
      (m.map Prod.fst).Nodup → ((l0.foldl conflateStep m).map Prod.fst).Nodup := by
    intro l0
    induction l0 with
    | nil => intro m hm; exact hm
    | cons p l0 ih =>
        intro m hm
        rw [List.foldl_cons]
        exact ih _ (conflateStep_keys_nodup m p hm)
  exact key l [] (by simp)

theorem lookupRepo_isSome_of_mem {m : List (String × CommitRecord)}
    {r : String} {c : CommitRecord} (h : (r, c) ∈ m) :
    ∃ c0, lookupRepo m r = some c0 := by
  induction m with
  | nil => cases h
  | cons p m ih =>
      rcases p with ⟨r0, c0⟩
      by_cases h0 : r0 = r
      · exact ⟨c0, by simp [lookupRepo, if_pos h0]⟩
      · rcases List.mem_cons.mp h with h1 | h1
        · cases h1; exact absurd rfl h0
        · rcases ih h1 with ⟨c1, hc1⟩
          exact ⟨c1, by simp [lookupRepo, if_neg h0, hc1]⟩

theorem filter_eq_nil_of_not_mem_keys {m : List (String × CommitRecord)}
    {r : String} (h : r ∉ m.map Prod.fst) :
    m.filter (fun p => decide (p.1 = r)) = [] := by
  induction m with
  | nil => rfl
  | cons p m ih =>
      rcases p with ⟨r0, c0⟩
      simp only [List.map_cons, List.mem_cons] at h
      push_neg at h
      rw [List.filter_cons]
      have hne : ¬ (r0 = r) := fun he => h.1 he.symm
      simp only [decide_eq_true_eq]
      rw [if_neg hne]
      exact ih h.2

theorem filter_eq_single_of_nodup {m : List (String × CommitRecord)}
    {r : String} {c : CommitRecord} (hnd : (m.map Prod.fst).Nodup)
    (h : lookupRepo m r = some c) :
    m.filter (fun p => decide (p.1 = r)) = [(r, c)] := by
  induction m with
  | nil => cases h
  | cons p m ih =>
      rcases p with ⟨r0, c0⟩
      simp only [List.map_cons, List.nodup_cons] at hnd
      by_cases h0 : r0 = r
      · subst h0
        rw [lookupRepo, if_pos rfl] at h
        injection h with h2
        subst h2
        rw [List.filter_cons, filter_eq_nil_of_not_mem_keys hnd.1]
        simp
      · simp only [lookupRepo, if_neg h0] at h
        rw [List.filter_cons]
        simp only [decide_eq_true_eq, if_neg h0]
        exact ih hnd.2 h

theorem of_mem_walkRepo {lastEventId : Option String} {now : Int}
    {cs : List CommitRecord} {c : CommitRecord}
    (h : c ∈ walkRepo lastEventId now cs) :
    c ∈ cs ∧ now - c.timestamp ≤ windowSeconds ∧
      cursorMatches lastEventId c.sha = false := by
  induction cs with
  | nil => cases h
  | cons c0 cs ih =>
      by_cases h0 : cursorMatches lastEventId c0.sha
      · rw [walkRepo, if_pos h0] at h
        cases h
      · rw [walkRepo, if_neg h0] at h
        by_cases h1 : now - c0.timestamp ≤ windowSeconds
        · rw [if_pos h1] at h
          rcases List.mem_cons.mp h with rfl | h2
          · exact ⟨List.mem_cons_self _ _, h1, Bool.of_not_eq_true h0⟩
          · rcases ih h2 with ⟨ha, hb, hc⟩
            exact ⟨List.mem_cons_of_mem _ ha, hb, hc⟩
        · rw [if_neg h1] at h
          rcases ih h with ⟨ha, hb, hc⟩
          exact ⟨List.mem_cons_of_mem _ ha, hb, hc⟩

theorem of_mem_accumulate {lastEventId : Option String} {now : Int}
    {repos : List (String × List CommitRecord)} {r : String} {c : CommitRecord}
    (h : (r, c) ∈ accumulate lastEventId now repos) :
    ∃ cs, (r, cs) ∈ repos ∧ c ∈ walkRepo lastEventId now cs := by
  induction repos with
  | nil => cases h
  | cons p repos ih =>
      rcases p with ⟨name, commits⟩
      rw [accumulate] at h
      rcases List.mem_append.mp h with h1 | h1
      · rcases List.mem_map.mp h1 with ⟨c0, hc0, he⟩
        injection he with he1 he2
        subst he1
        subst he2
        exact ⟨commits, List.mem_cons_self _ _, hc0⟩
      · rcases ih h1 with ⟨cs, hcs, hw⟩
        exact ⟨cs, List.mem_cons_of_mem _ hcs, hw⟩

theorem updateRepo_length (m : List (String × CommitRecord)) (name : String)
    (c : CommitRecord) : m.length ≤ (updateRepo m name c).length := by
  induction m with
  | nil => simp [updateRepo]
  | cons p m ih =>
      rcases p with ⟨r0, c0⟩
      by_cases h : r0 = name
      · simp [updateRepo, if_pos h]
      · simp only [updateRepo, if_neg h, List.length_cons]
        exact Nat.succ_le_succ ih

theorem conflateStep_length (m : List (String × CommitRecord))
    (p : String × CommitRecord) : m.length ≤ (conflateStep m p).length := by
  unfold conflateStep
  cases lookupRepo m p.1 with
  | none => exact updateRepo_length m p.1 p.2
  | some kept =>
      by_cases h : kept.timestamp < p.2.timestamp
      · simp only [if_pos h]
        exact updateRepo_length m p.1 p.2
      · simp only [if_neg h]
        exact le_refl _

theorem newestCommits_ne_nil {l : List (String × CommitRecord)} (h : l ≠ []) :
    newestCommits l ≠ [] := by
  have key : ∀ (l0 m : List (String × CommitRecord)),
      m.length ≤ (l0.foldl conflateStep m).length := by
    intro l0
    induction l0 with
    | nil => intro m; exact le_refl _
    | cons p l0 ih =>
        intro m
        rw [List.foldl_cons]
        exact le_trans (conflateStep_length m p) (ih _)
  cases l with
  | nil => exact absurd rfl h
  | cons p l =>
      intro hc
      have h1 : (1 : Nat) ≤ (newestCommits (p :: l)).length := by
        unfold newestCommits
        rw [List.foldl_cons]
        have h2 : conflateStep [] p = [(p.1, p.2)] := rfl
        calc (1 : Nat) = (conflateStep [] p).length := by rw [h2]; simp
        _ ≤ ((List.foldl conflateStep (conflateStep [] p) l)).length := key l _
      rw [hc] at h1
      cases h1

theorem maxByTimestamp_spec {m : List (String × CommitRecord)} (h : m ≠ []) :
    ∃ best, maxByTimestamp m = some best ∧ (∃ r, (r, best) ∈ m) ∧
      ∀ p ∈ m, p.2.timestamp ≤ best.timestamp := by
  cases m with
  | nil => exact absurd rfl h
  | cons q rest =>
      refine ⟨keepNewest q.2 (rest.map Prod.snd), rfl, ?_, ?_⟩
      · rcases keepNewest_mem q.2 (rest.map Prod.snd) with h1 | h1
        · exact ⟨q.1, by rw [h1]; exact List.mem_cons_self _ _⟩
        · rcases List.mem_map.mp h1 with ⟨p, hp, he⟩
          exact ⟨p.1, by rw [← he]; exact List.mem_cons_of_mem _ hp⟩
      · intro p hp
        rcases List.mem_cons.mp hp with rfl | hp1
        · exact le_keepNewest_self _ _
        · exact le_keepNewest_of_mem _ (List.mem_map_of_mem Prod.snd hp1)

theorem syncAccount_of_empty {lastEventId : Option String} {now : Int}
    {repos : List (String × List CommitRecord)}
    (h : accumulate lastEventId now repos = []) :
    syncAccount lastEventId now repos =
      { selected := [], newCursor := lastEventId } := by
  unfold syncAccount
  rw [h]
  rfl

theorem processTrace_of_empty {accId : Nat} {lastEventId : Option String}
    {now : Int} {repos : List (String × List CommitRecord)}
    {channel : Option Nat} (h : accumulate lastEventId now repos = []) :
    processTrace accId lastEventId now repos channel = [] := by
  unfold processTrace
  rw [h]
  rfl

theorem syncAccount_of_ne_nil {lastEventId : Option String} {now : Int}
    {repos : List (String × List CommitRecord)}
    (h : accumulate lastEventId now repos ≠ []) :
    ∃ best, maxByTimestamp (newestCommits (accumulate lastEventId now repos)) =
        some best ∧
      syncAccount lastEventId now repos =
        { selected := newestCommits (accumulate lastEventId now repos),
          newCursor := some best.sha } := by
  have hne : newestCommits (accumulate lastEventId now repos) ≠ [] :=
    newestCommits_ne_nil h
  rcases maxByTimestamp_spec hne with ⟨best, hb, _, _⟩
  refine ⟨best, hb, ?_⟩
  unfold syncAccount
  have hie : (accumulate lastEventId now repos).isEmpty = false := by
    cases hacc : accumulate lastEventId now repos with
    | nil => exact absurd hacc h
    | cons p l => rfl
  simp only [hie, Bool.false_eq_true, if_false, hb]

theorem accumulate_single (lastEventId : Option String) (now : Int)
    (name : String) (cs : List CommitRecord) :
    accumulate lastEventId now [(name, cs)] =
      (walkRepo lastEventId now cs).map (fun c => (name, c)) := by
  simp [accumulate]

theorem walkRepo_nil_of_stale {lastEventId : Option String} {now : Int}
    {cs : List CommitRecord}
    (h : ∀ c ∈ cs, ¬ (now - c.timestamp ≤ windowSeconds)) :
    walkRepo lastEventId now cs = [] := by
  induction cs with
  | nil => rfl
  | cons c cs ih =>
      by_cases h0 : cursorMatches lastEventId c.sha
      · rw [walkRepo, if_pos h0]
      · rw [walkRepo, if_neg h0, if_neg (h c (List.mem_cons_self _ _))]
        exact ih (fun x hx => h x (List.mem_cons_of_mem _ hx))

theorem walkRepo_ts_ge_cursor {now : Int} {cs : List CommitRecord} {s : String}
    {c0 : CommitRecord} (hsort : NewestFirst cs) (hmem : c0 ∈ cs)
    (hsha : c0.sha = s) :
    ∀ c ∈ walkRepo (some s) now cs, c0.timestamp ≤ c.timestamp := by
  induction cs with
  | nil => cases hmem
  | cons h t ih =>
      rcases List.pairwise_cons.mp hsort with ⟨hht, hsort2⟩
      by_cases h0 : cursorMatches (some s) h.sha
      · rw [walkRepo, if_pos h0]
        intro c hc
        cases hc
      · have hne : h.sha ≠ s := by
          intro he
          rw [cursorMatches] at h0
          exact h0 (by rw [he]; exact decide_eq_true rfl)
        have hmem2 : c0 ∈ t := by
          rcases List.mem_cons.mp hmem with rfl | h1
          · exact absurd hsha hne
          · exact h1
        rw [walkRepo, if_neg h0]
        by_cases h1 : now - h.timestamp ≤ windowSeconds
        · rw [if_pos h1]
          intro c hc
          rcases List.mem_cons.mp hc with rfl | hc2
          · exact hht c0 hmem2
          · exact ih hsort2 hmem2 c hc2
        · rw [if_neg h1]
          exact ih hsort2 hmem2

theorem foldl_conflateStep_single (cs : List CommitRecord) (name : String)
    (k : CommitRecord) :
    List.foldl conflateStep [(name, k)] (cs.map (fun c => (name, c))) =
      [(name, keepNewest k cs)] := by
  induction cs generalizing k with
  | nil => rfl
  | cons c cs ih =>
      rw [List.map_cons, List.foldl_cons]
      have hstep : conflateStep [(name, k)] (name, c) =
          [(name, if k.timestamp < c.timestamp then c else k)] := by
        by_cases h : k.timestamp < c.timestamp
        · simp [conflateStep, lookupRepo, updateRepo, h]
        · simp [conflateStep, lookupRepo, updateRepo, h]
      rw [hstep, ih, keepNewest]

theorem newestCommits_single (cs : List CommitRecord) (name : String)
    (a : CommitRecord) :
    newestCommits ((a :: cs).map (fun c => (name, c))) =
      [(name, keepNewest a cs)] := by
  unfold newestCommits
  rw [List.map_cons, List.foldl_cons]
  have h0 : conflateStep [] (name, a) = [(name, a)] := rfl
  rw [h0]
  exact foldl_conflateStep_single cs name a

theorem syncAccount_single_of_walk (name : String) {lastEventId : Option String}
    {now : Int} {cs : List CommitRecord} {a : CommitRecord}
    {t : List CommitRecord} (hw : walkRepo lastEventId now cs = a :: t) :
    syncAccount lastEventId now [(name, cs)] =
      { selected := [(name, keepNewest a t)],
        newCursor := some (keepNewest a t).sha } := by
  unfold syncAccount
  rw [accumulate_single, hw]
  have hmax : maxByTimestamp [(name, keepNewest a t)] = some (keepNewest a t) := rfl
  rw [List.map_cons]
  have hie : (((name, a) :: t.map (fun c => (name, c))).isEmpty) = false := rfl
  simp only [hie, Bool.false_eq_true, if_false]
  have hnc : newestCommits ((name, a) :: t.map (fun c => (name, c))) =
      [(name, keepNewest a t)] := by
    have := newestCommits_single t name a
    rw [List.map_cons] at this
    exact this
  rw [hnc, hmax]

theorem parseCommit_isOk {rc : RawCommit} (h1 : rc.sha.isSome = true)
    (h2 : rc.date.isSome = true) : ∃ c, parseCommit rc = .ok c := by
  rcases rc with ⟨sha, date, msg, an, u⟩
  cases sha with
  | none => cases h1
  | some s =>
      cases date with
      | none => cases h2
      | some d => exact ⟨_, rfl⟩

theorem walkRepoE_isOk {lastEventId : Option String} {now : Int}
    {raws : List RawCommit}
    (h : raws.all (fun rc => rc.sha.isSome && rc.date.isSome) = true) :
    ∃ cs, walkRepoE lastEventId now raws = .ok cs := by
  induction raws with
  | nil => exact ⟨[], rfl⟩
  | cons rc rest ih =>
      simp only [List.all_cons, Bool.and_eq_true] at h
      obtain ⟨⟨hs, hd⟩, hrest⟩ := h
      obtain ⟨c, hc⟩ := parseCommit_isOk hs hd
      obtain ⟨cs, hcs⟩ := ih hrest
      rw [walkRepoE, hc]
      by_cases hm : cursorMatches lastEventId c.sha
      · exact ⟨[], by simp [Bind.bind, Except.bind, hm, pure, Except.pure]⟩
      · by_cases hwin : now - c.timestamp ≤ windowSeconds
        · exact ⟨c :: cs,
            by simp [Bind.bind, Except.bind, hm, hcs, hwin, pure, Except.pure]⟩
        · exact ⟨cs,
            by simp [Bind.bind, Except.bind, hm, hcs, hwin, pure, Except.pure]⟩

theorem accumulateE_isOk {lastEventId : Option String} {now : Int}
    {fetches : List (String × FetchOutcome)}
    (h : fetches.all (fun p => wellFormedOutcome p.2) = true) :
    ∃ l, accumulateE lastEventId now fetches = .ok l := by
  induction fetches with
  | nil => exact ⟨[], rfl⟩
  | cons p rest ih =>
      simp only [List.all_cons, Bool.and_eq_true] at h
      obtain ⟨hp, hrest⟩ := h
      obtain ⟨l0, hl0⟩ := ih hrest
      rcases p with ⟨name, o⟩
      cases o with
      | httpError s => exact ⟨l0, by rw [accumulateE]; exact hl0⟩
      | page raws =>
          have hw : raws.all (fun rc => rc.sha.isSome && rc.date.isSome) = true := hp
          obtain ⟨cs, hcs⟩ := walkRepoE_isOk hw
          refine ⟨cs.map (fun c => (name, c)) ++ l0, ?_⟩
          rw [accumulateE, hcs]
          simp [Bind.bind, Except.bind, hl0, pure, Except.pure]

theorem processAccountE_isOk {now : Int} {a : AccountInput}
    (h : wellFormedInput a = true) : ∃ r, processAccountE now a = .ok r := by
  unfold processAccountE
  by_cases he : a.repoFetches.isEmpty
  · rw [if_pos he]
    exact ⟨_, rfl⟩
  · rw [if_neg he]
    obtain ⟨l, hl⟩ := accumulateE_isOk (h : a.repoFetches.all
      (fun p => wellFormedOutcome p.2) = true)
    rw [hl]
    by_cases hle : l.isEmpty
    · exact ⟨{ selected := [], newCursor := a.cursor },
        by simp [Bind.bind, Except.bind, hle, pure, Except.pure]⟩
    · cases hmax : maxByTimestamp (newestCommits l) with
      | none =>
          exact ⟨{ selected := newestCommits l, newCursor := a.cursor }, by
            simp [Bind.bind, Except.bind, hle, hmax, pure, Except.pure]⟩
      | some best =>
          exact ⟨{ selected := newestCommits l, newCursor := some best.sha }, by
            simp [Bind.bind, Except.bind, hle, hmax, pure, Except.pure]⟩

/-- C1 (amended): for a single-repository account whose fetched page is
newest-first and contains the commit the stored cursor identifies, a pass of
`check_commits` either leaves the cursor unchanged or moves it to a fetched
commit that is not older than the cursor's commit.  (As literally stated
the claim fails with several repositories, where the stop-at-cursor check
never fires on pages of the other repositories.) -/
theorem cursor_monotone_single_repo (name : String) (now : Int)
    (cs : List CommitRecord) (s : String) (c0 : CommitRecord)
    (hsort : NewestFirst cs) (hmem : c0 ∈ cs) (hsha : c0.sha = s) :
    (syncAccount (some s) now [(name, cs)]).newCursor = some s ∨
      ∃ cNew ∈ cs,
        (syncAccount (some s) now [(name, cs)]).newCursor = some cNew.sha ∧
        c0.timestamp ≤ cNew.timestamp := by
  cases hw : walkRepo (some s) now cs with
  | nil =>
      left
      have hacc : accumulate (some s) now [(name, cs)] = [] := by
        rw [accumulate_single, hw]
        rfl
      rw [syncAccount_of_empty hacc]
  | cons a t =>
      right
      have hsync := syncAccount_single_of_walk name hw
      have hmemw : keepNewest a t ∈ walkRepo (some s) now cs := by
        rw [hw]
        rcases keepNewest_mem a t with h1 | h1
        · rw [h1]
          exact List.mem_cons_self _ _
        · exact List.mem_cons_of_mem _ h1
      refine ⟨keepNewest a t, (of_mem_walkRepo hmemw).1, ?_, ?_⟩
      · rw [hsync]
      · exact walkRepo_ts_ge_cursor hsort hmem hsha _ hmemw

/-- C1 counterexample: with two repositories and constant upstream data the
cursor, stored as the sha of repository `A`'s commit at time 100, is moved
by one pass to the sha of repository `B`'s commit at time 50 — an older
commit, so cursor recency decreases. -/
theorem cursor_monotone_counterexample :
    commitA1 ∈ [commitA1] ∧ ("A", [commitA1]) ∈ twoRepoPages ∧
    commitA1.sha = "a1" ∧
    (syncAccount (some "a1") 100 twoRepoPages).newCursor = some commitB0.sha ∧
    commitB0.timestamp < commitA1.timestamp := by
  decide

/-- C2 (amended): every commit selected into the accumulation is within the
trailing 7-day window of the cycle start, and its sha differs from the
stored cursor; in particular a commit older than `now - 7 days` is never
selected.  (The claim's further condition — that a selected commit is never
older in recency than the cursor's commit — fails across repositories, see
the counterexample.) -/
theorem selection_window_and_cursor (lastEventId : Option String) (now : Int)
    (repos : List (String × List CommitRecord)) (r : String) (c : CommitRecord)
    (h : (r, c) ∈ accumulate lastEventId now repos) :
    now - c.timestamp ≤ windowSeconds ∧
      cursorMatches lastEventId c.sha = false := by
  obtain ⟨cs, _, hw⟩ := of_mem_accumulate h
  exact ⟨(of_mem_walkRepo hw).2.1, (of_mem_walkRepo hw).2.2⟩

/-- C2 counterexample: with the cursor at repository `A`'s commit of time
100, repository `B`'s commit of time 50 — older in recency than the cursor's
commit — is still selected into the accumulation. -/
theorem selection_older_than_cursor_counterexample :
    ("A", [commitA1]) ∈ twoRepoPages ∧ commitA1.sha = "a1" ∧
    ("B", commitB0) ∈ accumulate (some "a1") 100 twoRepoPages ∧
    commitB0.timestamp < commitA1.timestamp := by
  decide

/-- C3 (amended): for a single-repository account with a newest-first page,
running the per-account pass twice on identical upstream data selects
nothing the second time and leaves the cursor where the first pass put it.
(As literally stated the claim fails with several repositories, see the
counterexample.) -/
theorem sync_idempotent_single_repo (lastEventId : Option String) (now : Int)
    (name : String) (cs : List CommitRecord) (hsort : NewestFirst cs) :
    (syncAccount (syncAccount lastEventId now [(name, cs)]).newCursor now
        [(name, cs)]).selected = [] ∧
    (syncAccount (syncAccount lastEventId now [(name, cs)]).newCursor now
        [(name, cs)]).newCursor =
      (syncAccount lastEventId now [(name, cs)]).newCursor := by
  cases hw : walkRepo lastEventId now cs with
  | nil =>
      have hacc : accumulate lastEventId now [(name, cs)] = [] := by
        rw [accumulate_single, hw]
        rfl
      have h1 := syncAccount_of_empty hacc
      simp [h1]
  | cons a t =>
      cases cs with
      | nil =>
          rw [walkRepo] at hw
          exact absurd hw.symm (List.cons_ne_nil a t)
      | cons h0 t0 =>
          by_cases hcm : cursorMatches lastEventId h0.sha
          · rw [walkRepo, if_pos hcm] at hw
            exact absurd hw.symm (List.cons_ne_nil a t)
          · by_cases hwin : now - h0.timestamp ≤ windowSeconds
            · rw [walkRepo, if_neg hcm, if_pos hwin] at hw
              injection hw with hw1 hw2
              subst hw1
              have hpw := List.pairwise_cons.mp hsort
              have hw0 : walkRepo lastEventId now (h0 :: t0) = h0 :: t := by
                rw [walkRepo, if_neg hcm, if_pos hwin, hw2]
              have hkeep : keepNewest h0 t = h0 := by
                apply keepNewest_of_max
                intro x hx
                rw [← hw2] at hx
                exact hpw.1 x (of_mem_walkRepo hx).1
              have hsync1 := syncAccount_single_of_walk name hw0
              rw [hkeep] at hsync1
              have hw2nd : walkRepo (some h0.sha) now (h0 :: t0) = [] := by
                rw [walkRepo, if_pos ?_]
                rw [cursorMatches]
                exact decide_eq_true rfl
              have hacc2 : accumulate (some h0.sha) now [(name, h0 :: t0)] = [] := by
                rw [accumulate_single, hw2nd]
                rfl
              have hsync2 := syncAccount_of_empty hacc2
              simp [hsync1, hsync2]
            · rw [walkRepo, if_neg hcm, if_neg hwin] at hw
              have hpw := List.pairwise_cons.mp hsort
              have hstale : walkRepo lastEventId now t0 = [] := by
                apply walkRepo_nil_of_stale
                intro c hc hcwin
                apply hwin
                have hct : c.timestamp ≤ h0.timestamp := hpw.1 c hc
                omega
              rw [hstale] at hw
              exact absurd hw.symm (List.cons_ne_nil a t)

/-- C3 counterexample: with two repositories and unchanged upstream data the
second pass selects repository `A`'s commit again and moves the cursor
again — the sync is not no-op idempotent. -/
theorem sync_idempotent_counterexample :
    (syncAccount (syncAccount (some "a1") 100 twoRepoPages).newCursor 100
        twoRepoPages).selected ≠ [] ∧
    (syncAccount (syncAccount (some "a1") 100 twoRepoPages).newCursor 100
        twoRepoPages).newCursor ≠
      (syncAccount (some "a1") 100 twoRepoPages).newCursor := by
  decide

/-- C4: in the specification scenario — cursor at `C1` (time 0), page
`[C3 at 7200, C2 at 3600, C1 at 0]`, cycle start 10800 — one pass selects
exactly `{R ↦ C3}`, moves the cursor to `C3`, and the side-effect trace
delivers only `C3` (never `C2`). -/
theorem scenario_selects_newest_only :
    syncAccount (some "C1") 10800 scenarioPage =
      { selected := [("R", commitT2)], newCursor := some "C3" } ∧
    processTrace 1 (some "C1") 10800 scenarioPage (some 7) =
      [Event.cursorWrite 1 "C3", Event.deliver 7 "R" "C3"] := by
  decide

/-- C5: whenever at least one commit is accumulated for a repository in a
pass, the conflated selection holds exactly one entry for that repository,
and that entry's timestamp is maximal among the repository's accumulated
commits. -/
theorem per_repo_conflation_unique_max (lastEventId : Option String)
    (now : Int) (repos : List (String × List CommitRecord)) (r : String)
    (h : ∃ c, (r, c) ∈ accumulate lastEventId now repos) :
    ∃ c, (syncAccount lastEventId now repos).selected.filter
          (fun p => decide (p.1 = r)) = [(r, c)] ∧
      (r, c) ∈ accumulate lastEventId now repos ∧
      ∀ c2, (r, c2) ∈ accumulate lastEventId now repos →
        c2.timestamp ≤ c.timestamp := by
  obtain ⟨c0, hc0⟩ := h
  have hne : accumulate lastEventId now repos ≠ [] := List.ne_nil_of_mem hc0
  obtain ⟨best, hb, hsync⟩ := syncAccount_of_ne_nil hne
  have hlk := lookupRepo_newestCommits (accumulate lastEventId now repos) r
  have hc0f : c0 ∈ commitsFor r (accumulate lastEventId now repos) :=
    mem_commitsFor.mpr hc0
  cases hcf : commitsFor r (accumulate lastEventId now repos) with
  | nil =>
      rw [hcf] at hc0f
      cases hc0f
  | cons c1 csr =>
      rw [hcf] at hlk
      have hstep : foldOpt none (c1 :: csr) = foldOpt (some c1) csr := rfl
      rw [hstep.trans (foldOpt_some c1 csr)] at hlk
      refine ⟨keepNewest c1 csr, ?_, ?_, ?_⟩
      · rw [hsync]
        exact filter_eq_single_of_nodup (newestCommits_keys_nodup _) hlk
      · have hmemk : keepNewest c1 csr ∈ c1 :: csr := by
          rcases keepNewest_mem c1 csr with h1 | h1
          · rw [h1]
            exact List.mem_cons_self _ _
          · exact List.mem_cons_of_mem _ h1
        have hmemf : keepNewest c1 csr ∈
            commitsFor r (accumulate lastEventId now repos) := by
          rw [hcf]
          exact hmemk
        exact mem_commitsFor.mp hmemf
      · intro c2 hc2
        have hmem2 : c2 ∈ c1 :: csr := by
          rw [← hcf]
          exact mem_commitsFor.mpr hc2
        rcases List.mem_cons.mp hmem2 with rfl | h2
        · exact le_keepNewest_self _ _
        · exact le_keepNewest_of_mem _ h2

/-- C6: when nothing is accumulated, the pass returns the stored cursor
untouched and produces no side effect at all (in particular no cursor
write); when something is accumulated, the new cursor is the sha of a
selected commit whose timestamp is maximal across the whole selection. -/
theorem cursor_computation (lastEventId : Option String) (now : Int)
    (repos : List (String × List CommitRecord)) (accId : Nat)
    (channel : Option Nat) :
    (accumulate lastEventId now repos = [] →
      syncAccount lastEventId now repos =
        { selected := [], newCursor := lastEventId } ∧
      processTrace accId lastEventId now repos channel = []) ∧
    (accumulate lastEventId now repos ≠ [] →
      ∃ rb cb, (rb, cb) ∈ (syncAccount lastEventId now repos).selected ∧
        (syncAccount lastEventId now repos).newCursor = some cb.sha ∧
        ∀ p ∈ (syncAccount lastEventId now repos).selected,
          p.2.timestamp ≤ cb.timestamp) := by
  constructor
  · intro h
    exact ⟨syncAccount_of_empty h, processTrace_of_empty h⟩
  · intro h
    obtain ⟨best, hb, hsync⟩ := syncAccount_of_ne_nil h
    obtain ⟨best2, hb2, ⟨rb, hrb⟩, hmax⟩ :=
      maxByTimestamp_spec (newestCommits_ne_nil h)
    rw [hb] at hb2
    injection hb2 with hbe
    subst hbe
    refine ⟨rb, best, ?_, ?_, ?_⟩
    · rw [hsync]
      exact hrb
    · rw [hsync]
    · intro p hp
      rw [hsync] at hp
      exact hmax p hp

/-- C7: whenever a pass selects commits, its side-effect trace starts with
the cursor write and everything after it is a delivery attempt — the cursor
is persisted strictly before any delivery, and no later event (delivery
failure or missing channel included) writes the cursor again. -/
theorem persist_before_deliver (accId : Nat) (lastEventId : Option String)
    (now : Int) (repos : List (String × List CommitRecord))
    (channel : Option Nat) (h : accumulate lastEventId now repos ≠ []) :
    ∃ sha rest,
      processTrace accId lastEventId now repos channel =
        Event.cursorWrite accId sha :: rest ∧
      ∀ e ∈ rest, ∃ ch rn s, e = Event.deliver ch rn s := by
  obtain ⟨best, hb, _, _⟩ := maxByTimestamp_spec (newestCommits_ne_nil h)
  have hie : (accumulate lastEventId now repos).isEmpty = false := by
    cases hacc : accumulate lastEventId now repos with
    | nil => exact absurd hacc h
    | cons p l => rfl
  cases channel with
  | none =>
      refine ⟨best.sha, [], ?_, ?_⟩
      · unfold processTrace
        simp only [hie, Bool.false_eq_true, if_false, hb]
      · intro e he
        cases he
  | some ch =>
      refine ⟨best.sha,
        (newestCommits (accumulate lastEventId now repos)).map
          (fun p => Event.deliver ch p.1 p.2.sha), ?_, ?_⟩
      · unfold processTrace
        simp only [hie, Bool.false_eq_true, if_false, hb]
      · intro e he
        obtain ⟨p, hp, he2⟩ := List.mem_map.mp he
        exact ⟨ch, p.1, p.2.sha, he2.symm⟩

/-- C8 (amended): as long as every fetched commit record is well-formed,
per-account failures that the code actually handles — empty or failed
repository discovery and non-200 per-repository fetches — never abort the
tick: every account is processed and receives exactly its standalone sync
result.  (As literally stated the claim fails: a malformed commit record
raises an uncaught exception that aborts the whole account loop, see the
counterexample.) -/
theorem tick_error_isolation (now : Int) (accounts : List AccountInput)
    (h : ∀ a ∈ accounts, wellFormedInput a = true) :
    (runTick now accounts).2 = none ∧
    ∀ a ∈ accounts, ∀ r, processAccountE now a = .ok r →
      (a.accId, r) ∈ (runTick now accounts).1 := by
  induction accounts with
  | nil =>
      refine ⟨rfl, ?_⟩
      intro a ha
      cases ha
  | cons a rest ih =>
      obtain ⟨r0, hr0⟩ := processAccountE_isOk (h a (List.mem_cons_self _ _))
      obtain ⟨ih1, ih2⟩ := ih (fun x hx => h x (List.mem_cons_of_mem _ hx))
      have hrun : runTick now (a :: rest) =
          ((a.accId, r0) :: (runTick now rest).1, (runTick now rest).2) := by
        rw [runTick, hr0]
      constructor
      · rw [hrun]
        exact ih1
      · intro a2 ha2 r hr
        rcases List.mem_cons.mp ha2 with rfl | h2
        · rw [hr0] at hr
          injection hr with hre
          subst hre
          rw [hrun]
          exact List.mem_cons_self _ _
        · rw [hrun]
          exact List.mem_cons_of_mem _ (ih2 a2 h2 r hr)

/-- C8 counterexample: account `A`, processed first, carries one malformed
commit record; its pass raises, and the tick ends with no processed
outcome at all — account `B`, although it alone processes fine, is never
reached. -/
theorem tick_error_isolation_counterexample :
    (∃ e, processAccountE 100 accountA = .error e) ∧
    (∃ r, processAccountE 100 accountB = .ok r) ∧
    (runTick 100 [accountA, accountB]).1 = [] := by
  refine ⟨⟨"KeyError: sha", ?_⟩, ⟨accountBResult, ?_⟩, ?_⟩ <;> rfl

/-- C9: the catch-up seed stored by `add_github` is a GitHub *event id*
while `check_commits` compares it against commit *shas*, so the stop-at-
cursor check can never match the seeded value: at the first poll the
pre-existing within-window history commit is selected (and re-notified)
although the claim requires it not to be. -/
theorem seed_cursor_floods_first_poll :
    seedCursor [[seedPushEvent]] = some "31536004062" ∧
    cursorMatches (seedCursor [[seedPushEvent]]) historyCommit.sha = false ∧
    (syncAccount (seedCursor [[seedPushEvent]]) 100
        [("R", [historyCommit])]).selected = [("R", historyCommit)] ∧
    (syncAccount (seedCursor [[seedPushEvent]]) 100
        [("R", [historyCommit])]).newCursor = some "a1b2c3d" := by
  decide

/-- C10: the conflation of `check_commits` replaces a kept commit only on a
strictly greater timestamp; per repository it is the deterministic left
fold `foldOpt` of the accumulation order, and a first commit at least as
new as everything after it — equal timestamps included — stays kept. -/
theorem conflation_tie_break :
    (∀ (m : List (String × CommitRecord)) (r : String) (c k : CommitRecord),
        lookupRepo m r = some k → c.timestamp ≤ k.timestamp →
        conflateStep m (r, c) = m) ∧
    (∀ (l : List (String × CommitRecord)) (r : String),
        lookupRepo (newestCommits l) r = foldOpt none (commitsFor r l)) ∧
    (∀ (c1 : CommitRecord) (cs : List CommitRecord),
        (∀ x ∈ cs, x.timestamp ≤ c1.timestamp) →
        foldOpt none (c1 :: cs) = some c1) := by
  refine ⟨?_, ?_, ?_⟩
  · intro m r c k hlk hle
    have hred : conflateStep m (r, c) =
        if k.timestamp < c.timestamp then updateRepo m r c else m := by
      unfold conflateStep
      rw [hlk]
    rw [hred, if_neg (not_lt_of_le hle)]
  · intro l r
    exact lookupRepo_newestCommits l r
  · intro c1 cs hmax
    have hstep : foldOpt none (c1 :: cs) = foldOpt (some c1) cs := rfl
    rw [hstep, foldOpt_some, keepNewest_of_max hmax]

/-- Witness for C1: a concrete sorted single-repository page containing the
cursor's commit, run through the amended monotonicity theorem. -/
theorem cursor_monotone_single_repo_witness :
    NewestFirst [commitA1, commitB0] ∧ commitB0 ∈ [commitA1, commitB0] ∧
    commitB0.sha = "b0" ∧
    ((syncAccount (some "b0") 100 [("R", [commitA1, commitB0])]).newCursor =
        some "b0" ∨
      ∃ cNew ∈ [commitA1, commitB0],
        (syncAccount (some "b0") 100
            [("R", [commitA1, commitB0])]).newCursor = some cNew.sha ∧
        commitB0.timestamp ≤ cNew.timestamp) :=
  ⟨by decide, by decide, rfl,
    cursor_monotone_single_repo "R" 100 [commitA1, commitB0] "b0" commitB0
      (by decide) (by decide) rfl⟩

/-- Witness for C2: the selected commit of repository `B` satisfies the
window bound and differs from the stored cursor. -/
theorem selection_window_and_cursor_witness :
    ("B", commitB0) ∈ accumulate (some "a1") 100 twoRepoPages ∧
    (100 - commitB0.timestamp ≤ windowSeconds ∧
      cursorMatches (some "a1") commitB0.sha = false) :=
  ⟨by decide,
    selection_window_and_cursor (some "a1") 100 twoRepoPages "B" commitB0
      (by decide)⟩

/-- Witness for C3: the scenario page, sorted newest-first, run through the
amended single-repository idempotence theorem. -/
theorem sync_idempotent_single_repo_witness :
    NewestFirst [commitT2, commitT1, commitT0] ∧
    ((syncAccount (syncAccount (some "C1") 10800
          [("R", [commitT2, commitT1, commitT0])]).newCursor 10800
        [("R", [commitT2, commitT1, commitT0])]).selected = [] ∧
      (syncAccount (syncAccount (some "C1") 10800
          [("R", [commitT2, commitT1, commitT0])]).newCursor 10800
        [("R", [commitT2, commitT1, commitT0])]).newCursor =
      (syncAccount (some "C1") 10800
        [("R", [commitT2, commitT1, commitT0])]).newCursor) :=
  ⟨by decide,
    sync_idempotent_single_repo (some "C1") 10800 "R"
      [commitT2, commitT1, commitT0] (by decide)⟩

/-- Witness for C5: repository `R` of the scenario has accumulated commits,
and the conflated selection keeps exactly its newest one. -/
theorem per_repo_conflation_unique_max_witness :
    (∃ c, ("R", c) ∈ accumulate (some "C1") 10800 scenarioPage) ∧
    (∃ c, (syncAccount (some "C1") 10800 scenarioPage).selected.filter
          (fun p => decide (p.1 = "R")) = [("R", c)] ∧
      ("R", c) ∈ accumulate (some "C1") 10800 scenarioPage ∧
      ∀ c2, ("R", c2) ∈ accumulate (some "C1") 10800 scenarioPage →
        c2.timestamp ≤ c.timestamp) :=
  ⟨⟨commitT2, by decide⟩,
    per_repo_conflation_unique_max (some "C1") 10800 scenarioPage "R"
      ⟨commitT2, by decide⟩⟩

/-- Witness for C6: an idle account leaves everything untouched, and the
scenario account gets a cursor equal to the sha of its newest selected
commit. -/
theorem cursor_computation_witness :
    (syncAccount none 100 [] = { selected := [], newCursor := none } ∧
      processTrace 0 none 100 [] none = []) ∧
    (∃ rb cb, (rb, cb) ∈ (syncAccount (some "C1") 10800 scenarioPage).selected ∧
      (syncAccount (some "C1") 10800 scenarioPage).newCursor = some cb.sha ∧
      ∀ p ∈ (syncAccount (some "C1") 10800 scenarioPage).selected,
        p.2.timestamp ≤ cb.timestamp) :=
  ⟨(cursor_computation none 100 [] 0 none).1 rfl,
    (cursor_computation (some "C1") 10800 scenarioPage 0 none).2 (by decide)⟩

/-- Witness for C7: the scenario trace starts with the cursor write and
everything after it is a delivery. -/
theorem persist_before_deliver_witness :
    accumulate (some "C1") 10800 scenarioPage ≠ [] ∧
    ∃ sha rest,
      processTrace 1 (some "C1") 10800 scenarioPage (some 7) =
        Event.cursorWrite 1 sha :: rest ∧
      ∀ e ∈ rest, ∃ ch rn s, e = Event.deliver ch rn s :=
  ⟨by decide,
    persist_before_deliver 1 (some "C1") 10800 scenarioPage (some 7)
      (by decide)⟩

/-- Witness for C8: a tick over an account with empty discovery, an account
whose only fetch is a 403, and a healthy account processes all of them. -/
theorem tick_error_isolation_witness :
    (∀ a ∈ witnessTickAccounts, wellFormedInput a = true) ∧
    ((runTick 100 witnessTickAccounts).2 = none ∧
      ∀ a ∈ witnessTickAccounts, ∀ r, processAccountE 100 a = .ok r →
        (a.accId, r) ∈ (runTick 100 witnessTickAccounts).1) :=
  ⟨by decide, tick_error_isolation 100 witnessTickAccounts (by decide)⟩

/-- Witness for C10: a kept commit with a larger timestamp survives an
older incoming commit, and the first of the pair stays the fold result. -/
theorem conflation_tie_break_witness :
    lookupRepo [("R", commitA1)] "R" = some commitA1 ∧
    commitB0.timestamp ≤ commitA1.timestamp ∧
    conflateStep [("R", commitA1)] ("R", commitB0) = [("R", commitA1)] ∧
    (∀ x ∈ [commitB0], x.timestamp ≤ commitA1.timestamp) ∧
    foldOpt none (commitA1 :: [commitB0]) = some commitA1 :=
  ⟨by decide, by decide,
    conflation_tie_break.1 [("R", commitA1)] "R" commitB0 commitA1 (by decide)
      (by decide),
    by decide, conflation_tie_break.2.2 commitA1 [commitB0] (by decide)⟩
